import Mathlib

/-!
Verification of the knight's-tour solver core
(`src/client/src/lib/knightsTour.ts`) against its specification.

The TypeScript source is embedded shallowly:

* `Position` is a triple of integers (TS `number`s hold exact integers here).
* The TS `Set<string>` of visited keys is a `List String` with set-like
  insertion (`List.insert` is a no-op on duplicates, like `Set.add`) and
  membership; the solver never inserts a key that is already present.
* The recursive `backtrack` closure mutates `path`/`visited`/`backtracks`.
  Here state is threaded explicitly: on a failed branch the source pops the
  pushed position and deletes its (fresh) key, which restores exactly the
  pre-push `path` and `visited`, so the embedding resumes with the original
  values; the `backtracks` counter is threaded through and never restored.
* The recursion is expressed with an explicit depth budget (`fuel`): each
  level of the TS recursion grows `path` by one and the search returns once
  `path.length === totalSquares`, so `totalSquares + 1` levels are never
  exceeded; the top-level call supplies exactly that budget.
* `Array.prototype.sort` with comparator `(a, b) => a.accessibility -
  b.accessibility` is a stable ascending sort, embedded as `List.mergeSort`
  with the corresponding `≤` test.
-/

set_option maxRecDepth 100000

structure Position where
  x : ℤ
  y : ℤ
  layer : ℤ
deriving DecidableEq

structure TourResult where
  solution : List Position
  backtracks : ℕ
deriving DecidableEq

/-- The 8 planar knight moves (TS constant `MOVES_2D`). -/
def MOVES_2D : List (ℤ × ℤ) :=
  [(2, 1), (2, -1), (-2, 1), (-2, -1), (1, 2), (1, -2), (-1, 2), (-1, -2)]

/-- `move[axis] = v` on a `[dx, dy, dz]` triple, for axis indices 0, 1, 2. -/
def setAxis : ℕ → ℤ → ℤ × ℤ × ℤ → ℤ × ℤ × ℤ
  | 0, v, (_, y, z) => (v, y, z)
  | 1, v, (x, _, z) => (x, v, z)
  | _, v, (x, y, _) => (x, y, v)

/-- The axis index list `[0, 1, 2]` (x, y, z) from `generateKnight3DMoves`. -/
def axesList : List ℕ := [0, 1, 2]

/-- TS `generateKnight3DMoves`: for each choice of zero axis, of the axis
carrying ±2, and of both signs, build `[0,0,0]` with the ±2 and ±1 entries
assigned (in the source's assignment order). -/
def generateKnight3DMoves : List (ℤ × ℤ × ℤ) :=
  axesList.flatMap fun zeroAxis =>
    let otherAxes := axesList.filter fun a => a != zeroAxis
    otherAxes.flatMap fun twoAxis =>
      match otherAxes.find? fun a => a != twoAxis with
      | some oneAxis =>
          ([1, -1] : List ℤ).flatMap fun twoSign =>
            ([1, -1] : List ℤ).map fun oneSign =>
              setAxis oneAxis (1 * oneSign) (setAxis twoAxis (2 * twoSign) (0, 0, 0))
      | none => []

/-- TS constant `MOVES_3D = generateKnight3DMoves()`. -/
def MOVES_3D : List (ℤ × ℤ × ℤ) := generateKnight3DMoves

/-- TS `positionToKey`: the template literal `x,y,layer` in decimal. -/
def positionToKey (pos : Position) : String :=
  toString pos.x ++ "," ++ toString pos.y ++ "," ++ toString pos.layer

/-- TS `isValidPosition`. -/
def isValidPosition (x y layer boardSize layers : ℤ) : Prop :=
  x ≥ 0 ∧ x < boardSize ∧ y ≥ 0 ∧ y < boardSize ∧ layer ≥ 0 ∧ layer < layers

instance (x y layer boardSize layers : ℤ) :
    Decidable (isValidPosition x y layer boardSize layers) := by
  unfold isValidPosition; infer_instance

/-- The move table selected on line 106 of the source:
`layers > 1 ? MOVES_3D : MOVES_2D.map(([dx, dy]) => [dx, dy, 0])`. -/
def activeMoves (layers : ℤ) : List (ℤ × ℤ × ℤ) :=
  if layers > 1 then MOVES_3D else MOVES_2D.map fun m => (m.1, m.2, 0)

/-- TS `getValidMoves`: offsets applied to `pos`, kept when in bounds and
their key is not in `visited`, in move-table order. -/
def getValidMoves (pos : Position) (boardSize layers : ℤ) (visited : List String) :
    List Position :=
  (activeMoves layers).filterMap fun d =>
    let newX := pos.x + d.1
    let newY := pos.y + d.2.1
    let newLayer := pos.layer + d.2.2
    if isValidPosition newX newY newLayer boardSize layers ∧
        positionToKey ⟨newX, newY, newLayer⟩ ∉ visited then
      some (⟨newX, newY, newLayer⟩ : Position)
    else none

/-- TS `sortMovesByWarnsdorf`: pair each move with its accessibility count,
stable-sort ascending by that count, project the moves back out. -/
def sortMovesByWarnsdorf (moves : List Position) (boardSize layers : ℤ)
    (visited : List String) : List Position :=
  ((moves.map fun move =>
      (move, (getValidMoves move boardSize layers visited).length)).mergeSort
    fun a b => decide (a.2 ≤ b.2)).map fun item => item.1

/-- The `for (const nextPos of sortedMoves)` loop body of TS `backtrack`:
push `nextPos` (path append + key insert), recurse via `f`; on failure count
one backtrack and continue with the restored pre-push state. -/
def tryMoves (f : Position → List Position → List String → ℕ → Option (List Position) × ℕ) :
    List Position → List Position → List String → ℕ → Option (List Position) × ℕ
  | [], _, _, backtracks => (none, backtracks)
  | nextPos :: rest, path, visited, backtracks =>
    match f nextPos (path ++ [nextPos]) (visited.insert (positionToKey nextPos)) backtracks with
    | (some sol, b) => (some sol, b)
    | (none, b) => tryMoves f rest path visited (b + 1)

/-- TS `backtrack(pos)`: success when the path covers `totalSquares` cells,
otherwise try the Warnsdorf-sorted valid moves in order.  `fuel` bounds the
recursion depth; the top-level call supplies a budget the source recursion
provably never exceeds. -/
def backtrack (boardSize layers totalSquares : ℤ) :
    ℕ → Position → List Position → List String → ℕ → Option (List Position) × ℕ
  | 0, _, _, _, backtracks => (none, backtracks)
  | fuel + 1, pos, path, visited, backtracks =>
    if (path.length : ℤ) = totalSquares then (some path, backtracks)
    else
      tryMoves (backtrack boardSize layers totalSquares fuel)
        (sortMovesByWarnsdorf (getValidMoves pos boardSize layers visited)
          boardSize layers visited)
        path visited backtracks

/-- TS `solveKnightsTour`: seed the path and visited set with `startPos`,
run the backtracking search, and package the result. -/
def solveKnightsTour (boardSize layers : ℤ) (startPos : Position) : TourResult :=
  let totalSquares := boardSize * boardSize * layers
  let visited : List String := ([] : List String).insert (positionToKey startPos)
  let path : List Position := [startPos]
  match backtrack boardSize layers totalSquares (totalSquares.toNat + 1)
      startPos path visited 0 with
  | (some sol, b) => { solution := sol, backtracks := b }
  | (none, b) => { solution := [], backtracks := b }

/-! ### Specification-side definitions (stated from the spec's words) -/

/-- A generalized knight offset as the spec words it: exactly one axis is
displaced by ±2, exactly one other axis by ±1, and the remaining axis is 0. -/
def SpecKnightVec (v : ℤ × ℤ × ℤ) : Prop :=
  (|v.1| = 2 ∧ |v.2.1| = 1 ∧ v.2.2 = 0) ∨
  (|v.1| = 2 ∧ v.2.1 = 0 ∧ |v.2.2| = 1) ∨
  (|v.1| = 1 ∧ |v.2.1| = 2 ∧ v.2.2 = 0) ∨
  (v.1 = 0 ∧ |v.2.1| = 2 ∧ |v.2.2| = 1) ∨
  (|v.1| = 1 ∧ v.2.1 = 0 ∧ |v.2.2| = 2) ∨
  (v.1 = 0 ∧ |v.2.1| = 1 ∧ |v.2.2| = 2)

instance (v : ℤ × ℤ × ℤ) : Decidable (SpecKnightVec v) := by
  unfold SpecKnightVec; infer_instance

/-- The spec's onward degree of a candidate: legal moves from it that are
in bounds and unvisited, with the candidate itself provisionally visited. -/
def specOnwardDegree (c : Position) (boardSize layers : ℤ) (visited : List String) : ℕ :=
  (getValidMoves c boardSize layers (visited.insert (positionToKey c))).length

/-- One legal knight step of the solver: the coordinate difference is a
vector of the move table active for this layer count. -/
def LegalStep (layers : ℤ) (p q : Position) : Prop :=
  (q.x - p.x, q.y - p.y, q.layer - p.layer) ∈ activeMoves layers

instance (layers : ℤ) (p q : Position) : Decidable (LegalStep layers p q) := by
  unfold LegalStep; infer_instance

/-- A Hamiltonian knight's tour of the `boardSize × boardSize × layers` grid
starting at `start`: starts at `start`, has one entry per cell, repeats no
cell, makes only legal knight steps, and stays in bounds. -/
def IsKnightTour (boardSize layers : ℤ) (start : Position) (t : List Position) : Prop :=
  t.head? = some start ∧ (t.length : ℤ) = boardSize * boardSize * layers ∧
  t.Nodup ∧ List.Chain' (LegalStep layers) t ∧
  ∀ p ∈ t, isValidPosition p.x p.y p.layer boardSize layers

/-- The visited key set holds exactly the keys of the path (the source keeps
`visited` in lockstep with `path`). -/
def Lockstep (path : List Position) (visited : List String) : Prop :=
  ∀ s, s ∈ visited ↔ ∃ p ∈ path, positionToKey p = s

/-- Invariant of a partial search path: no repeats, consecutive entries are
legal knight steps, and every entry after the seed is in bounds. -/
def GoodState (boardSize layers : ℤ) (path : List Position) : Prop :=
  path.Nodup ∧ List.Chain' (LegalStep layers) path ∧
  ∀ p ∈ path.tail, isValidPosition p.x p.y p.layer boardSize layers

/-- The cells of the `boardSize × boardSize × layers` grid, as a finset. -/
def gridCells (boardSize layers : ℤ) : Finset Position :=
  ((Finset.Icc 0 (boardSize - 1)) ×ˢ (Finset.Icc 0 (boardSize - 1)) ×ˢ
      (Finset.Icc 0 (layers - 1))).image fun t => ⟨t.1, t.2.1, t.2.2⟩

/-- Decimal digit string of a natural number, described through
`Nat.digits`; used only to reason about `Nat.repr`. -/
def specRepr (n : ℕ) : List Char :=
  if n = 0 then ['0'] else ((Nat.digits 10 n).map Nat.digitChar).reverse

/-- The ten decimal digit characters. -/
def decimalDigitChars : List Char :=
  ['0', '1', '2', '3', '4', '5', '6', '7', '8', '9']

/-! ### Decimal rendering: `Nat.repr` via `Nat.digits`, and key injectivity -/

theorem toDigitsCore_eq_specRepr :
    ∀ (fuel n : ℕ) (ds : List Char), n < fuel →
      Nat.toDigitsCore 10 fuel n ds = specRepr n ++ ds := by
  intro fuel
  induction fuel with
  | zero => intro n ds h; omega
  | succ fuel ih =>
    intro n ds h
    by_cases h0 : n / 10 = 0
    · have hn : n < 10 := by omega
      by_cases hz : n = 0
      · subst hz
        simp [Nat.toDigitsCore, specRepr]
        rfl
      · have hdig : Nat.digits 10 n = [n] := Nat.digits_of_lt 10 n hz hn
        simp [Nat.toDigitsCore, h0, specRepr, hz, hdig, Nat.mod_eq_of_lt hn]
    · have hlt : n / 10 < fuel := by
        have hn0 : 0 < n := by
          rcases Nat.eq_zero_or_pos n with h' | h'
          · subst h'; simp at h0
          · exact h'
        have : n / 10 < n := Nat.div_lt_self hn0 (by omega)
        omega
      have hn0 : n ≠ 0 := by
        intro hz; subst hz; simp at h0
      have hd : Nat.digits 10 n = n % 10 :: Nat.digits 10 (n / 10) :=
        Nat.digits_def' (by norm_num) (Nat.pos_of_ne_zero hn0)
      have hs : specRepr n = specRepr (n / 10) ++ [Nat.digitChar (n % 10)] := by
        rw [specRepr, specRepr, if_neg hn0, if_neg h0, hd]
        simp
      have hstep : Nat.toDigitsCore 10 (fuel + 1) n ds =
          Nat.toDigitsCore 10 fuel (n / 10) (Nat.digitChar (n % 10) :: ds) := by
        simp [Nat.toDigitsCore, h0]
      rw [hstep, ih (n / 10) _ hlt, hs, List.append_assoc]
      rfl

theorem natRepr_data (n : ℕ) : (Nat.repr n).data = specRepr n := by
  rw [Nat.repr, Nat.toDigits, toDigitsCore_eq_specRepr (n + 1) n [] (by omega)]
  simp [List.asString]

theorem specRepr_ne_nil (n : ℕ) : specRepr n ≠ [] := by
  rw [specRepr]
  split
  · simp
  · rename_i hn
    intro h
    have hne : Nat.digits 10 n ≠ [] := Nat.digits_ne_nil_iff_ne_zero.mpr hn
    simp at h
    exact hne h

theorem mem_specRepr_digit {n : ℕ} {c : Char} (h : c ∈ specRepr n) :
    c ∈ decimalDigitChars := by
  rw [specRepr] at h
  split at h
  · simp at h; subst h; decide
  · simp only [List.mem_reverse, List.mem_map] at h
    obtain ⟨d, hd, rfl⟩ := h
    have hlt : d < 10 := Nat.digits_lt_base (by norm_num) hd
    have hall : ∀ d < 10, Nat.digitChar d ∈ decimalDigitChars := by decide
    exact hall d hlt

theorem map_digitChar_inj :
    ∀ (l1 l2 : List ℕ), (∀ d ∈ l1, d < 10) → (∀ d ∈ l2, d < 10) →
      l1.map Nat.digitChar = l2.map Nat.digitChar → l1 = l2 := by
  intro l1
  induction l1 with
  | nil =>
    intro l2 _ _ h
    cases l2 with
    | nil => rfl
    | cons b t2 => simp at h
  | cons a t ih =>
    intro l2 h1 h2 h
    cases l2 with
    | nil => simp at h
    | cons b t2 =>
      simp only [List.map_cons, List.cons.injEq] at h
      obtain ⟨hab, ht⟩ := h
      have hinj : ∀ d < 10, ∀ e < 10, Nat.digitChar d = Nat.digitChar e → d = e := by decide
      have hae := hinj a (h1 a (by simp)) b (h2 b (by simp)) hab
      subst hae
      rw [ih t2 (fun d hd => h1 d (by simp [hd])) (fun d hd => h2 d (by simp [hd])) ht]

theorem specRepr_inj {a b : ℕ} (h : specRepr a = specRepr b) : a = b := by
  by_cases ha : a = 0 <;> by_cases hb : b = 0
  · omega
  · exfalso
    rw [specRepr, if_pos ha, specRepr, if_neg hb] at h
    have hm : (Nat.digits 10 b).map Nat.digitChar = ['0'] := by
      have := congrArg List.reverse h
      simpa using this.symm
    rcases hdig : Nat.digits 10 b with _ | ⟨d, t⟩
    · rw [hdig] at hm; simp at hm
    · rw [hdig] at hm
      simp only [List.map_cons, List.cons.injEq] at hm
      obtain ⟨hd0, ht⟩ := hm
      have htn : t = [] := by
        cases t with
        | nil => rfl
        | cons x xs => simp at ht
      subst htn
      have hdlt : d < 10 := Nat.digits_lt_base (by norm_num) (by rw [hdig]; simp)
      have hinj : ∀ d < 10, Nat.digitChar d = '0' → d = 0 := by decide
      have hd' : d = 0 := hinj d hdlt hd0
      subst hd'
      have := Nat.ofDigits_digits 10 b
      rw [hdig] at this
      simp [Nat.ofDigits] at this
      exact hb this.symm
  · exfalso
    rw [specRepr, if_neg ha, specRepr, if_pos hb] at h
    have hm : (Nat.digits 10 a).map Nat.digitChar = ['0'] := by
      have := congrArg List.reverse h
      simpa using this
    rcases hdig : Nat.digits 10 a with _ | ⟨d, t⟩
    · rw [hdig] at hm; simp at hm
    · rw [hdig] at hm
      simp only [List.map_cons, List.cons.injEq] at hm
      obtain ⟨hd0, ht⟩ := hm
      have htn : t = [] := by
        cases t with
        | nil => rfl
        | cons x xs => simp at ht
      subst htn
      have hdlt : d < 10 := Nat.digits_lt_base (by norm_num) (by rw [hdig]; simp)
      have hinj : ∀ d < 10, Nat.digitChar d = '0' → d = 0 := by decide
      have hd' : d = 0 := hinj d hdlt hd0
      subst hd'
      have := Nat.ofDigits_digits 10 a
      rw [hdig] at this
      simp [Nat.ofDigits] at this
      exact ha this.symm
  · rw [specRepr, if_neg ha, specRepr, if_neg hb] at h
    have h' := congrArg List.reverse h
    simp only [List.reverse_reverse] at h'
    have hdig := map_digitChar_inj _ _
      (fun d hd => Nat.digits_lt_base (by norm_num) hd)
      (fun d hd => Nat.digits_lt_base (by norm_num) hd) h'
    exact Nat.digits_inj_iff.mp hdig

theorem natRepr_inj {a b : ℕ} (h : Nat.repr a = Nat.repr b) : a = b := by
  have hd := congrArg String.data h
  rw [natRepr_data, natRepr_data] at hd
  exact specRepr_inj hd

theorem toString_int_eq_repr (i : ℤ) : toString i = Int.repr i := rfl

theorem intRepr_data_ofNat (m : ℕ) : (Int.repr (Int.ofNat m)).data = specRepr m := by
  rw [Int.repr]
  exact natRepr_data m

theorem intRepr_data_negSucc (m : ℕ) :
    (Int.repr (Int.negSucc m)).data = '-' :: specRepr (m + 1) := by
  rw [Int.repr]
  have hminus : ("-" : String).data = ['-'] := rfl
  rw [String.data_append, hminus, natRepr_data]
  rfl

theorem mem_intRepr_chars {i : ℤ} {c : Char} (h : c ∈ (Int.repr i).data) :
    c = '-' ∨ c ∈ decimalDigitChars := by
  cases i with
  | ofNat m =>
    right
    rw [intRepr_data_ofNat] at h
    exact mem_specRepr_digit h
  | negSucc m =>
    rw [intRepr_data_negSucc] at h
    rcases List.mem_cons.mp h with h' | h'
    · exact Or.inl h'
    · exact Or.inr (mem_specRepr_digit h')

theorem intRepr_inj {i j : ℤ} (h : Int.repr i = Int.repr j) : i = j := by
  have hd := congrArg String.data h
  cases i with
  | ofNat m =>
    cases j with
    | ofNat k =>
      rw [intRepr_data_ofNat, intRepr_data_ofNat] at hd
      rw [specRepr_inj hd]
    | negSucc k =>
      exfalso
      rw [intRepr_data_ofNat, intRepr_data_negSucc] at hd
      have hmem : '-' ∈ specRepr m := by rw [hd]; simp
      have := mem_specRepr_digit hmem
      simp [decimalDigitChars] at this
  | negSucc m =>
    cases j with
    | ofNat k =>
      exfalso
      rw [intRepr_data_negSucc, intRepr_data_ofNat] at hd
      have hmem : '-' ∈ specRepr k := by rw [← hd]; simp
      have := mem_specRepr_digit hmem
      simp [decimalDigitChars] at this
    | negSucc k =>
      rw [intRepr_data_negSucc, intRepr_data_negSucc] at hd
      simp only [List.cons.injEq, true_and] at hd
      have hmk := specRepr_inj hd
      have hmk' : m = k := by omega
      rw [hmk']

theorem comma_not_mem_toString_int (i : ℤ) : ',' ∉ (toString i).data := by
  intro h
  rw [toString_int_eq_repr] at h
  rcases mem_intRepr_chars h with h' | h'
  · exact absurd h' (by decide)
  · exact absurd h' (by decide)

theorem append_comma_inj :
    ∀ (A₁ R₁ A₂ R₂ : List Char), ',' ∉ A₁ → ',' ∉ A₂ →
      A₁ ++ ',' :: R₁ = A₂ ++ ',' :: R₂ → A₁ = A₂ ∧ R₁ = R₂ := by
  intro A₁
  induction A₁ with
  | nil =>
    intro R₁ A₂ R₂ _ h2 h
    cases A₂ with
    | nil =>
      simp only [List.nil_append, List.cons.injEq, true_and] at h
      exact ⟨rfl, h⟩
    | cons a t =>
      simp only [List.nil_append, List.cons_append, List.cons.injEq] at h
      exact absurd (h.1 ▸ List.mem_cons_self a t) h2
  | cons a t ih =>
    intro R₁ A₂ R₂ h1 h2 h
    cases A₂ with
    | nil =>
      simp only [List.cons_append, List.nil_append, List.cons.injEq] at h
      exact absurd (h.1 ▸ List.mem_cons_self a t) h1
    | cons b t2 =>
      simp only [List.cons_append, List.cons.injEq] at h
      obtain ⟨hab, ht⟩ := h
      subst hab
      have h1' : ',' ∉ t := fun hm => h1 (List.mem_cons_of_mem a hm)
      have h2' : ',' ∉ t2 := fun hm => h2 (List.mem_cons_of_mem a hm)
      obtain ⟨hA, hR⟩ := ih R₁ t2 R₂ h1' h2' ht
      exact ⟨by rw [hA], hR⟩

theorem positionToKey_data (p : Position) :
    (positionToKey p).data =
      (toString p.x).data ++ ',' ::
        ((toString p.y).data ++ ',' :: (toString p.layer).data) := by
  rw [positionToKey]
  have hcomma : ("," : String).data = [','] := rfl
  simp only [String.data_append, hcomma]
  simp

theorem positionToKey_inj {p q : Position} (h : positionToKey p = positionToKey q) :
    p = q := by
  have hd := congrArg String.data h
  rw [positionToKey_data, positionToKey_data] at hd
  obtain ⟨hx, hrest⟩ := append_comma_inj _ _ _ _
    (comma_not_mem_toString_int p.x) (comma_not_mem_toString_int q.x) hd
  obtain ⟨hy, hl⟩ := append_comma_inj _ _ _ _
    (comma_not_mem_toString_int p.y) (comma_not_mem_toString_int q.y) hrest
  have hx' : p.x = q.x := by
    have := intRepr_inj (String.ext hx)
    simpa [toString_int_eq_repr] using this
  have hy' : p.y = q.y := by
    have := intRepr_inj (String.ext hy)
    simpa [toString_int_eq_repr] using this
  have hl' : p.layer = q.layer := by
    have := intRepr_inj (String.ext hl)
    simpa [toString_int_eq_repr] using this
  cases p
  cases q
  simp_all

/-! ### Move tables and `getValidMoves` -/

theorem activeMoves_ne_zero (layers : ℤ) :
    ∀ d ∈ activeMoves layers, d ≠ ((0 : ℤ), (0 : ℤ), (0 : ℤ)) := by
  unfold activeMoves
  split
  · decide
  · decide

theorem activeMoves_dz_of_not_gt (layers : ℤ) (h : ¬ layers > 1) :
    ∀ d ∈ activeMoves layers, d.2.2 = 0 := by
  unfold activeMoves
  rw [if_neg h]
  decide

theorem mem_getValidMoves {pos q : Position} {bs layers : ℤ} {visited : List String} :
    q ∈ getValidMoves pos bs layers visited ↔
      LegalStep layers pos q ∧ isValidPosition q.x q.y q.layer bs layers ∧
        positionToKey q ∉ visited := by
  simp only [getValidMoves, List.mem_filterMap]
  constructor
  · rintro ⟨d, hd, hopt⟩
    split at hopt
    · rename_i hc
      obtain ⟨hval, hfresh⟩ := hc
      have hq := Option.some.inj hopt
      refine ⟨?_, ?_, ?_⟩
      · unfold LegalStep
        have hdd : (q.x - pos.x, q.y - pos.y, q.layer - pos.layer) = d := by
          obtain ⟨d1, d2, d3⟩ := d
          rw [← hq]
          simp only [Prod.mk.injEq]
          refine ⟨by ring, by ring, by ring⟩
        rw [hdd]
        exact hd
      · rw [← hq]
        exact hval
      · rw [← hq]
        exact hfresh
    · exact absurd hopt (by simp)
  · rintro ⟨hstep, hval, hfresh⟩
    refine ⟨(q.x - pos.x, q.y - pos.y, q.layer - pos.layer), hstep, ?_⟩
    have e1 : pos.x + (q.x - pos.x) = q.x := by ring
    have e2 : pos.y + (q.y - pos.y) = q.y := by ring
    have e3 : pos.layer + (q.layer - pos.layer) = q.layer := by ring
    simp only [e1, e2, e3]
    rw [if_pos ⟨hval, hfresh⟩]

theorem getValidMoves_insert_self (c : Position) (bs layers : ℤ) (visited : List String) :
    getValidMoves c bs layers (visited.insert (positionToKey c)) =
      getValidMoves c bs layers visited := by
  unfold getValidMoves
  apply List.filterMap_congr
  intro d hd
  have hne : (⟨c.x + d.1, c.y + d.2.1, c.layer + d.2.2⟩ : Position) ≠ c := by
    intro h
    apply activeMoves_ne_zero layers d hd
    obtain ⟨d1, d2, d3⟩ := d
    have h1 := congrArg Position.x h
    have h2 := congrArg Position.y h
    have h3 := congrArg Position.layer h
    simp at h1 h2 h3
    simp [h1, h2, h3]
  have hkey : positionToKey ⟨c.x + d.1, c.y + d.2.1, c.layer + d.2.2⟩ ≠ positionToKey c :=
    fun h => hne (positionToKey_inj h)
  simp only [List.mem_insert_iff, hkey, false_or]

theorem specOnwardDegree_eq_accessibility (c : Position) (bs layers : ℤ)
    (visited : List String) :
    specOnwardDegree c bs layers visited = (getValidMoves c bs layers visited).length := by
  rw [specOnwardDegree, getValidMoves_insert_self]

/-! ### `sortMovesByWarnsdorf`: permutation, order, stability -/

theorem sortMoves_perm (moves : List Position) (bs layers : ℤ) (visited : List String) :
    (sortMovesByWarnsdorf moves bs layers visited).Perm moves := by
  unfold sortMovesByWarnsdorf
  have h := List.mergeSort_perm
    (moves.map fun move => (move, (getValidMoves move bs layers visited).length))
    (fun a b => decide (a.2 ≤ b.2))
  have h2 := h.map (fun item : Position × ℕ => item.1)
  rw [List.map_map] at h2
  have h3 : ((fun item : Position × ℕ => item.1) ∘ fun move : Position =>
      (move, (getValidMoves move bs layers visited).length)) = fun move : Position => move := rfl
  rw [h3] at h2
  simpa using h2

theorem mem_sortMoves {c : Position} {moves : List Position} {bs layers : ℤ}
    {visited : List String} :
    c ∈ sortMovesByWarnsdorf moves bs layers visited ↔ c ∈ moves :=
  (sortMoves_perm moves bs layers visited).mem_iff

theorem warnsdorfLE_trans :
    ∀ a b c : Position × ℕ, decide (a.2 ≤ b.2) → decide (b.2 ≤ c.2) → decide (a.2 ≤ c.2) := by
  intro a b c hab hbc
  simp only [decide_eq_true_eq] at *
  omega

theorem warnsdorfLE_total :
    ∀ a b : Position × ℕ, (decide (a.2 ≤ b.2) || decide (b.2 ≤ a.2)) = true := by
  intro a b
  simp only [Bool.or_eq_true, decide_eq_true_eq]
  omega

theorem sortMoves_sorted (moves : List Position) (bs layers : ℤ) (visited : List String) :
    List.Pairwise (fun a b : Position =>
        specOnwardDegree a bs layers visited ≤ specOnwardDegree b bs layers visited)
      (sortMovesByWarnsdorf moves bs layers visited) := by
  unfold sortMovesByWarnsdorf
  rw [List.pairwise_map]
  have hs := List.sorted_mergeSort warnsdorfLE_trans warnsdorfLE_total
    (moves.map fun move => (move, (getValidMoves move bs layers visited).length))
  refine hs.imp_of_mem ?_
  intro a b ha hb hab
  have ha2 : a.2 = specOnwardDegree a.1 bs layers visited := by
    have ham := List.mem_mergeSort.mp ha
    obtain ⟨m, _, rfl⟩ := List.mem_map.mp ham
    simp [specOnwardDegree_eq_accessibility]
  have hb2 : b.2 = specOnwardDegree b.1 bs layers visited := by
    have hbm := List.mem_mergeSort.mp hb
    obtain ⟨m, _, rfl⟩ := List.mem_map.mp hbm
    simp [specOnwardDegree_eq_accessibility]
  have hab' : a.2 ≤ b.2 := by simpa using hab
  rw [ha2, hb2] at hab'
  exact hab'

theorem sortMoves_stable (moves : List Position) (bs layers : ℤ) (visited : List String)
    (k : ℕ) :
    (sortMovesByWarnsdorf moves bs layers visited).filter
        (fun c => decide (specOnwardDegree c bs layers visited = k)) =
      moves.filter (fun c => decide (specOnwardDegree c bs layers visited = k)) := by
  classical
  unfold sortMovesByWarnsdorf
  set f : Position → Position × ℕ :=
    fun move => (move, (getValidMoves move bs layers visited).length) with hf
  set le : Position × ℕ → Position × ℕ → Bool := fun a b => decide (a.2 ≤ b.2) with hle
  set P : Position → Bool := fun c => decide (specOnwardDegree c bs layers visited = k)
    with hP
  set Q : Position × ℕ → Bool := fun pr => decide (pr.2 = k) with hQ
  have hsnd : ∀ pr ∈ moves.map f, pr.2 = specOnwardDegree pr.1 bs layers visited := by
    intro pr hpr
    obtain ⟨m, _, rfl⟩ := List.mem_map.mp hpr
    simp [hf, specOnwardDegree_eq_accessibility]
  have step1 : ((moves.map f).mergeSort le).filter (fun pr => P pr.1) =
      ((moves.map f).mergeSort le).filter Q := by
    apply List.filter_congr
    intro pr hpr
    have h2 := hsnd pr (List.mem_mergeSort.mp hpr)
    simp only [hP, hQ]
    rw [decide_eq_decide]
    rw [h2]
  have hApw : ((moves.map f).filter Q).Pairwise fun a b => le a b := by
    apply List.pairwise_of_forall_mem_list
    intro a ha b hb
    have ha2 : a.2 = k := by simpa [hQ] using (List.mem_filter.mp ha).2
    have hb2 : b.2 = k := by simpa [hQ] using (List.mem_filter.mp hb).2
    simp [hle, ha2, hb2]
  have hAsub : List.Sublist ((moves.map f).filter Q) ((moves.map f).mergeSort le) :=
    List.sublist_mergeSort warnsdorfLE_trans warnsdorfLE_total hApw
      (List.filter_sublist (moves.map f))
  have hAfilter : ((moves.map f).filter Q).filter Q = (moves.map f).filter Q := by
    apply List.filter_eq_self.mpr
    intro a ha
    exact (List.mem_filter.mp ha).2
  have hsub2 : List.Sublist ((moves.map f).filter Q) (((moves.map f).mergeSort le).filter Q) := by
    rw [← hAfilter]
    exact hAsub.filter Q
  have hlen : (((moves.map f).mergeSort le).filter Q).length =
      ((moves.map f).filter Q).length := by
    rw [← List.countP_eq_length_filter, ← List.countP_eq_length_filter]
    exact (List.mergeSort_perm (moves.map f) le).countP_eq Q
  have step3 : ((moves.map f).mergeSort le).filter Q = (moves.map f).filter Q :=
    (hsub2.eq_of_length hlen.symm).symm
  have step4 : ((moves.map f).filter Q).map (fun item : Position × ℕ => item.1) =
      moves.filter P := by
    rw [List.filter_map]
    have hcomp : (Q ∘ f) = P := by
      funext m
      simp only [hQ, hP, hf, Function.comp_apply]
      rw [decide_eq_decide]
      rw [specOnwardDegree_eq_accessibility]
    rw [hcomp, List.map_map]
    have hid : ((fun item : Position × ℕ => item.1) ∘ f) = fun m : Position => m := rfl
    rw [hid]
    simp
  calc (((moves.map f).mergeSort le).map fun item => item.1).filter P
      = (((moves.map f).mergeSort le).filter (fun pr => P pr.1)).map
          (fun item : Position × ℕ => item.1) := by
        rw [List.filter_map]
        rfl
    _ = (((moves.map f).mergeSort le).filter Q).map
          (fun item : Position × ℕ => item.1) := by rw [step1]
    _ = ((moves.map f).filter Q).map (fun item : Position × ℕ => item.1) := by rw [step3]
    _ = moves.filter P := step4

theorem MOVES_3D_eq_literal :
    MOVES_3D = [((0 : ℤ), (2 : ℤ), (1 : ℤ)), (0, 2, -1), (0, -2, 1), (0, -2, -1),
      (0, 1, 2), (0, -1, 2), (0, 1, -2), (0, -1, -2),
      (2, 0, 1), (2, 0, -1), (-2, 0, 1), (-2, 0, -1),
      (1, 0, 2), (-1, 0, 2), (1, 0, -2), (-1, 0, -2),
      (2, 1, 0), (2, -1, 0), (-2, 1, 0), (-2, -1, 0),
      (1, 2, 0), (-1, 2, 0), (1, -2, 0), (-1, -2, 0)] := by decide

theorem mem_MOVES_3D_iff_specKnightVec (v : ℤ × ℤ × ℤ) :
    v ∈ MOVES_3D ↔ SpecKnightVec v := by
  constructor
  · intro h
    rw [MOVES_3D_eq_literal] at h
    fin_cases h <;> decide
  · intro hv
    obtain ⟨a, b, c⟩ := v
    rcases hv with ⟨h1, h2, h3⟩ | ⟨h1, h2, h3⟩ | ⟨h1, h2, h3⟩ | ⟨h1, h2, h3⟩ |
      ⟨h1, h2, h3⟩ | ⟨h1, h2, h3⟩
    · simp only at h1 h2 h3
      subst h3
      rcases (abs_eq (by norm_num : (0 : ℤ) ≤ 2)).mp h1 with rfl | rfl <;>
        rcases (abs_eq (by norm_num : (0 : ℤ) ≤ 1)).mp h2 with rfl | rfl <;> decide
    · simp only at h1 h2 h3
      subst h2
      rcases (abs_eq (by norm_num : (0 : ℤ) ≤ 2)).mp h1 with rfl | rfl <;>
        rcases (abs_eq (by norm_num : (0 : ℤ) ≤ 1)).mp h3 with rfl | rfl <;> decide
    · simp only at h1 h2 h3
      subst h3
      rcases (abs_eq (by norm_num : (0 : ℤ) ≤ 1)).mp h1 with rfl | rfl <;>
        rcases (abs_eq (by norm_num : (0 : ℤ) ≤ 2)).mp h2 with rfl | rfl <;> decide
    · simp only at h1 h2 h3
      subst h1
      rcases (abs_eq (by norm_num : (0 : ℤ) ≤ 2)).mp h2 with rfl | rfl <;>
        rcases (abs_eq (by norm_num : (0 : ℤ) ≤ 1)).mp h3 with rfl | rfl <;> decide
    · simp only at h1 h2 h3
      subst h2
      rcases (abs_eq (by norm_num : (0 : ℤ) ≤ 1)).mp h1 with rfl | rfl <;>
        rcases (abs_eq (by norm_num : (0 : ℤ) ≤ 2)).mp h3 with rfl | rfl <;> decide
    · simp only at h1 h2 h3
      subst h1
      rcases (abs_eq (by norm_num : (0 : ℤ) ≤ 1)).mp h2 with rfl | rfl <;>
        rcases (abs_eq (by norm_num : (0 : ℤ) ≤ 2)).mp h3 with rfl | rfl <;> decide

/-! ### Search invariants: soundness of returned solutions -/

theorem lockstep_insert {path : List Position} {visited : List String} (next : Position)
    (h : Lockstep path visited) :
    Lockstep (path ++ [next]) (visited.insert (positionToKey next)) := by
  intro s
  rw [List.mem_insert_iff, h s]
  constructor
  · rintro (rfl | ⟨p, hp, rfl⟩)
    · exact ⟨next, by simp, rfl⟩
    · exact ⟨p, by simp [hp], rfl⟩
  · rintro ⟨p, hp, rfl⟩
    rcases List.mem_append.mp hp with hp' | hp'
    · exact Or.inr ⟨p, hp', rfl⟩
    · have hpn : p = next := by simpa using hp'
      subst hpn
      exact Or.inl rfl

theorem key_fresh_of_not_mem {path : List Position} {visited : List String} {p : Position}
    (h : Lockstep path visited) (hp : p ∉ path) : positionToKey p ∉ visited := by
  intro hmem
  obtain ⟨q, hq, hkey⟩ := (h _).mp hmem
  exact hp (positionToKey_inj hkey ▸ hq)

theorem goodState_append {bs layers : ℤ} {path : List Position} {next pos : Position}
    (hgood : GoodState bs layers path) (hlast : path.getLast? = some pos)
    (hstep : LegalStep layers pos next)
    (hval : isValidPosition next.x next.y next.layer bs layers) (hnm : next ∉ path) :
    GoodState bs layers (path ++ [next]) := by
  obtain ⟨hnd, hch, htail⟩ := hgood
  refine ⟨?_, ?_, ?_⟩
  · rw [List.nodup_append]
    refine ⟨hnd, List.nodup_singleton _, ?_⟩
    intro a ha hasing
    have : a = next := by simpa using hasing
    subst this
    exact hnm ha
  · rw [List.chain'_append]
    refine ⟨hch, List.chain'_singleton _, ?_⟩
    intro x hx y hy
    rw [hlast] at hx
    have hx' : pos = x := by simpa using hx
    have hy' : next = y := by simpa using hy
    rw [← hx', ← hy']
    exact hstep
  · intro p hp
    have htl : (path ++ [next]).tail = path.tail ++ [next] := by
      cases path with
      | nil => simp at hlast
      | cons a t => simp
    rw [htl] at hp
    rcases List.mem_append.mp hp with h | h
    · exact htail p h
    · have : p = next := by simpa using h
      subst this
      exact hval

theorem tryMoves_sound (bs layers total : ℤ)
    (f : Position → List Position → List String → ℕ → Option (List Position) × ℕ)
    (hf : ∀ pos path visited b sol b', f pos path visited b = (some sol, b') →
      Lockstep path visited → GoodState bs layers path → path.getLast? = some pos →
      (∃ ext, sol = path ++ ext) ∧ (sol.length : ℤ) = total ∧ GoodState bs layers sol) :
    ∀ (cands : List Position) (pos : Position) (path : List Position)
      (visited : List String) (b : ℕ) (sol : List Position) (b' : ℕ),
      tryMoves f cands path visited b = (some sol, b') →
      Lockstep path visited → GoodState bs layers path → path.getLast? = some pos →
      (∀ c ∈ cands, positionToKey c ∉ visited ∧
        isValidPosition c.x c.y c.layer bs layers ∧ LegalStep layers pos c) →
      (∃ ext, sol = path ++ ext) ∧ (sol.length : ℤ) = total ∧ GoodState bs layers sol := by
  intro cands
  induction cands with
  | nil =>
    intro pos path visited b sol b' heq
    simp [tryMoves] at heq
  | cons next rest ih =>
    intro pos path visited b sol b' heq hlock hgood hlast hcands
    rw [tryMoves] at heq
    rcases hfc : f next (path ++ [next]) (visited.insert (positionToKey next)) b with ⟨os, b2⟩
    rw [hfc] at heq
    rcases os with _ | s
    · simp only at heq
      exact ih pos path visited (b2 + 1) sol b' heq hlock hgood hlast
        (fun c hc => hcands c (by simp [hc]))
    · simp only [Prod.mk.injEq, Option.some.injEq] at heq
      obtain ⟨rfl, rfl⟩ := heq
      obtain ⟨hfresh, hval, hstep⟩ := hcands next (by simp)
      have hnm : next ∉ path := fun hmem => hfresh ((hlock _).mpr ⟨next, hmem, rfl⟩)
      have hlock' := lockstep_insert next hlock
      have hgood' := goodState_append hgood hlast hstep hval hnm
      have hlast' : (path ++ [next]).getLast? = some next := List.getLast?_concat path
      obtain ⟨⟨ext, hext⟩, hlen, hgoodsol⟩ :=
        hf next (path ++ [next]) _ b _ _ hfc hlock' hgood' hlast'
      refine ⟨⟨next :: ext, ?_⟩, hlen, hgoodsol⟩
      rw [hext, List.append_assoc]
      rfl

theorem backtrack_sound (bs layers total : ℤ) :
    ∀ (fuel : ℕ) (pos : Position) (path : List Position) (visited : List String)
      (b : ℕ) (sol : List Position) (b' : ℕ),
      backtrack bs layers total fuel pos path visited b = (some sol, b') →
      Lockstep path visited → GoodState bs layers path → path.getLast? = some pos →
      (∃ ext, sol = path ++ ext) ∧ (sol.length : ℤ) = total ∧ GoodState bs layers sol := by
  intro fuel
  induction fuel with
  | zero =>
    intro pos path visited b sol b' heq
    simp [backtrack] at heq
  | succ fuel ih =>
    intro pos path visited b sol b' heq hlock hgood hlast
    rw [backtrack] at heq
    split at heq
    · rename_i hlen
      simp only [Prod.mk.injEq, Option.some.injEq] at heq
      obtain ⟨rfl, rfl⟩ := heq
      exact ⟨⟨[], by simp⟩, hlen, hgood⟩
    · refine tryMoves_sound bs layers total _
        (fun p pa v bb s bb' => ih p pa v bb s bb')
        _ pos path visited b sol b' heq hlock hgood hlast ?_
      intro c hc
      have hc' := mem_sortMoves.mp hc
      obtain ⟨hstep, hval, hfresh⟩ := mem_getValidMoves.mp hc'
      exact ⟨hfresh, hval, hstep⟩

/-! ### Search invariants: completeness of the backtracking search -/

theorem tryMoves_complete
    (f : Position → List Position → List String → ℕ → Option (List Position) × ℕ)
    (P : Position → Prop) :
    ∀ (cands : List Position) (path : List Position) (visited : List String) (b : ℕ),
      (∃ c ∈ cands, P c) →
      (∀ c, P c → ∀ b₁ : ℕ, ∃ sol b₂,
        f c (path ++ [c]) (visited.insert (positionToKey c)) b₁ = (some sol, b₂)) →
      ∃ sol b', tryMoves f cands path visited b = (some sol, b') := by
  intro cands
  induction cands with
  | nil =>
    rintro path visited b ⟨c, hc, _⟩
    simp at hc
  | cons next rest ih =>
    rintro path visited b ⟨c, hc, hP⟩ hsucc
    rcases hfc : f next (path ++ [next]) (visited.insert (positionToKey next)) b with ⟨os, b2⟩
    rcases os with _ | s
    · rcases List.mem_cons.mp hc with rfl | hcr
      · exfalso
        obtain ⟨sol, b₂, heq⟩ := hsucc c hP b
        rw [heq] at hfc
        simp at hfc
      · obtain ⟨sol, b', heq⟩ := ih path visited (b2 + 1) ⟨c, hcr, hP⟩ hsucc
        refine ⟨sol, b', ?_⟩
        rw [tryMoves, hfc]
        exact heq
    · refine ⟨s, b2, ?_⟩
      rw [tryMoves, hfc]

theorem backtrack_complete (bs layers total : ℤ) :
    ∀ (fuel : ℕ) (pos : Position) (path : List Position) (visited : List String)
      (b : ℕ) (ext : List Position),
      Lockstep path visited → (path ++ ext).Nodup → path.getLast? = some pos →
      ((path ++ ext).length : ℤ) = total →
      List.Chain' (LegalStep layers) (path ++ ext) →
      (∀ p ∈ ext, isValidPosition p.x p.y p.layer bs layers) →
      total.toNat + 1 ≤ path.length + fuel →
      ∃ sol b', backtrack bs layers total fuel pos path visited b = (some sol, b') := by
  intro fuel
  induction fuel with
  | zero =>
    intro pos path visited b ext _ _ _ hlen _ _ hfuel
    exfalso
    have htn : total.toNat = (path ++ ext).length := by
      rw [← hlen]
      exact Int.toNat_natCast _
    rw [List.length_append] at htn
    omega
  | succ fuel ih =>
    intro pos path visited b ext hlock hnd hlast hlen hchain hextval hfuel
    by_cases hdone : (path.length : ℤ) = total
    · refine ⟨path, b, ?_⟩
      rw [backtrack, if_pos hdone]
    · rcases ext with _ | ⟨e, ext'⟩
      · exfalso
        simp at hlen
        exact hdone hlen
      have hassoc : path ++ e :: ext' = (path ++ [e]) ++ ext' := by simp
      have hstep : LegalStep layers pos e := by
        rw [List.chain'_append] at hchain
        obtain ⟨_, _, hj⟩ := hchain
        exact hj pos (by rw [hlast]; rfl) e rfl
      have henm : e ∉ path := by
        rw [List.nodup_append] at hnd
        intro hmem
        exact hnd.2.2 hmem (by simp)
      have hfresh : positionToKey e ∉ visited := key_fresh_of_not_mem hlock henm
      have hval : isValidPosition e.x e.y e.layer bs layers := hextval e (by simp)
      have hcand : e ∈ getValidMoves pos bs layers visited :=
        mem_getValidMoves.mpr ⟨hstep, hval, hfresh⟩
      have hsorted : e ∈ sortMovesByWarnsdorf (getValidMoves pos bs layers visited)
          bs layers visited := mem_sortMoves.mpr hcand
      have happly : ∃ sol b', tryMoves (backtrack bs layers total fuel)
          (sortMovesByWarnsdorf (getValidMoves pos bs layers visited) bs layers visited)
          path visited b = (some sol, b') := by
        refine tryMoves_complete (backtrack bs layers total fuel) (fun c => c = e)
          _ path visited b ⟨e, hsorted, rfl⟩ ?_
        rintro c rfl b₁
        refine ih c (path ++ [c]) (visited.insert (positionToKey c)) b₁ ext'
          (lockstep_insert c hlock) ?_ (List.getLast?_concat _) ?_ ?_
          (fun p hp => hextval p (by simp [hp])) ?_
        · rw [← hassoc]
          exact hnd
        · rw [← hassoc]
          exact hlen
        · rw [← hassoc]
          exact hchain
        · rw [List.length_append]
          simp only [List.length_singleton]
          omega
      obtain ⟨sol, b', heq⟩ := happly
      refine ⟨sol, b', ?_⟩
      rw [backtrack, if_neg hdone]
      exact heq

/-! ### Entry state and grid counting -/

theorem insert_nil_key (start : Position) :
    ([] : List String).insert (positionToKey start) = [positionToKey start] := rfl

theorem lockstep_entry (start : Position) : Lockstep [start] [positionToKey start] := by
  intro s
  constructor
  · intro hs
    have hs' : s = positionToKey start := by simpa using hs
    exact ⟨start, by simp, hs'.symm⟩
  · rintro ⟨p, hp, rfl⟩
    have hp' : p = start := by simpa using hp
    subst hp'
    simp

theorem goodState_entry (bs layers : ℤ) (start : Position) : GoodState bs layers [start] :=
  ⟨List.nodup_singleton _, List.chain'_singleton _, by simp⟩

theorem solve_eq_some {bs layers : ℤ} {start : Position} {sol : List Position} {b : ℕ}
    (h : backtrack bs layers (bs * bs * layers) ((bs * bs * layers).toNat + 1) start
        [start] [positionToKey start] 0 = (some sol, b)) :
    solveKnightsTour bs layers start = ⟨sol, b⟩ := by
  have hm : solveKnightsTour bs layers start =
      match backtrack bs layers (bs * bs * layers) ((bs * bs * layers).toNat + 1) start
        [start] [positionToKey start] 0 with
      | (some sol, b) => { solution := sol, backtracks := b }
      | (none, b) => { solution := [], backtracks := b } := rfl
  rw [hm, h]

theorem solve_backtrack_of_ne_nil {bs layers : ℤ} {start : Position}
    (h : (solveKnightsTour bs layers start).solution ≠ []) :
    ∃ b', backtrack bs layers (bs * bs * layers) ((bs * bs * layers).toNat + 1) start
        [start] [positionToKey start] 0 =
      (some (solveKnightsTour bs layers start).solution, b') := by
  rcases heq : backtrack bs layers (bs * bs * layers) ((bs * bs * layers).toNat + 1) start
      [start] [positionToKey start] 0 with ⟨os, b⟩
  rcases os with _ | s
  · exfalso
    apply h
    have hm : solveKnightsTour bs layers start =
        match backtrack bs layers (bs * bs * layers) ((bs * bs * layers).toNat + 1) start
          [start] [positionToKey start] 0 with
        | (some sol, b) => { solution := sol, backtracks := b }
        | (none, b) => { solution := [], backtracks := b } := rfl
    rw [hm, heq]
  · refine ⟨b, ?_⟩
    rw [solve_eq_some heq]

theorem mem_gridCells {p : Position} {bs layers : ℤ} :
    p ∈ gridCells bs layers ↔ isValidPosition p.x p.y p.layer bs layers := by
  obtain ⟨px, py, pl⟩ := p
  unfold gridCells isValidPosition
  simp only [Finset.mem_image, Finset.mem_product, Finset.mem_Icc]
  constructor
  · rintro ⟨⟨a, b, c⟩, ht, heq⟩
    have h1 := congrArg Position.x heq
    have h2 := congrArg Position.y heq
    have h3 := congrArg Position.layer heq
    dsimp only at h1 h2 h3 ht ⊢
    omega
  · intro h
    dsimp only at h ⊢
    refine ⟨⟨px, py, pl⟩, ?_, rfl⟩
    dsimp only
    omega

theorem gridCells_card {bs layers : ℤ} (hbs : 0 < bs) (hl : 0 < layers) :
    (gridCells bs layers).card = (bs * bs * layers).toNat := by
  unfold gridCells
  rw [Finset.card_image_of_injective]
  · rw [Finset.card_product, Finset.card_product]
    rw [Int.card_Icc, Int.card_Icc]
    have h1 : bs - 1 + 1 - 0 = bs := by ring
    have h2 : layers - 1 + 1 - 0 = layers := by ring
    rw [h1, h2]
    have hcast : bs * bs * layers = ((bs.toNat * (bs.toNat * layers.toNat) : ℕ) : ℤ) := by
      push_cast [Int.toNat_of_nonneg hbs.le, Int.toNat_of_nonneg hl.le]
      ring
    rw [hcast, Int.toNat_natCast]
  · rintro ⟨a1, a2, a3⟩ ⟨b1, b2, b3⟩ h
    have h1 := congrArg Position.x h
    have h2 := congrArg Position.y h
    have h3 := congrArg Position.layer h
    simp only at h1 h2 h3
    simp [h1, h2, h3]

theorem solve_sound (bs layers : ℤ) (start : Position)
    (h : (solveKnightsTour bs layers start).solution ≠ []) :
    (∃ ext, (solveKnightsTour bs layers start).solution = start :: ext) ∧
    (((solveKnightsTour bs layers start).solution.length : ℤ) = bs * bs * layers) ∧
    GoodState bs layers (solveKnightsTour bs layers start).solution := by
  obtain ⟨b', heq⟩ := solve_backtrack_of_ne_nil h
  have hlast : ([start] : List Position).getLast? = some start := by simp
  obtain ⟨⟨ext, hext⟩, hlen, hgood⟩ := backtrack_sound bs layers (bs * bs * layers)
    ((bs * bs * layers).toNat + 1) start [start] [positionToKey start] 0
    ((solveKnightsTour bs layers start).solution) b' heq (lockstep_entry start)
    (goodState_entry bs layers start) hlast
  exact ⟨⟨ext, by simpa using hext⟩, hlen, hgood⟩

theorem solve_covers (bs layers : ℤ) (start : Position)
    (h : (solveKnightsTour bs layers start).solution ≠ [])
    (hstart : isValidPosition start.x start.y start.layer bs layers) :
    ∀ p : Position, isValidPosition p.x p.y p.layer bs layers →
      (solveKnightsTour bs layers start).solution.count p = 1 := by
  obtain ⟨⟨ext, hext⟩, hlen, hnd, hch, htail⟩ := solve_sound bs layers start h
  have htl : (solveKnightsTour bs layers start).solution.tail = ext := by
    rw [hext]
    rfl
  have hall : ∀ p ∈ (solveKnightsTour bs layers start).solution,
      isValidPosition p.x p.y p.layer bs layers := by
    intro p hp
    rw [hext] at hp
    rcases List.mem_cons.mp hp with rfl | hpe
    · exact hstart
    · exact htail p (htl ▸ hpe)
  have hbs : 0 < bs := by
    obtain ⟨h1, h2, _⟩ := hstart
    omega
  have hl : 0 < layers := by
    obtain ⟨_, _, _, _, h5, h6⟩ := hstart
    omega
  have hsub : (solveKnightsTour bs layers start).solution.toFinset ⊆ gridCells bs layers := by
    intro p hp
    exact mem_gridCells.mpr (hall p (List.mem_toFinset.mp hp))
  have hlen' : (solveKnightsTour bs layers start).solution.length =
      (bs * bs * layers).toNat := by
    have h2 := congrArg Int.toNat hlen
    rwa [Int.toNat_natCast] at h2
  have hcard : (gridCells bs layers).card ≤
      (solveKnightsTour bs layers start).solution.toFinset.card := by
    rw [List.toFinset_card_of_nodup hnd, gridCells_card hbs hl, hlen']
  have heqset : (solveKnightsTour bs layers start).solution.toFinset = gridCells bs layers :=
    Finset.eq_of_subset_of_card_le hsub hcard
  intro p hp
  have hmem : p ∈ (solveKnightsTour bs layers start).solution := by
    rw [← List.mem_toFinset, heqset]
    exact mem_gridCells.mpr hp
  exact List.count_eq_one_of_mem hnd hmem

/-! ### The claims -/

unseal List.merge List.mergeSort

/-- C1 (amended): every non-empty solution of `solveKnightsTour` has length
`boardSize² × layers`, starts at `start`, and repeats no position; when the
start itself is in bounds, every in-bounds cell appears exactly once.  (The
unconditional full-coverage reading of the claim fails when the start is out
of bounds; see the counterexample.) -/
theorem solveKnightsTour_success_shape (bs layers : ℤ) (start : Position)
    (h : (solveKnightsTour bs layers start).solution ≠ []) :
    ((solveKnightsTour bs layers start).solution.length : ℤ) = bs * bs * layers ∧
    (solveKnightsTour bs layers start).solution.head? = some start ∧
    (solveKnightsTour bs layers start).solution.Nodup ∧
    (isValidPosition start.x start.y start.layer bs layers →
      ∀ p : Position, isValidPosition p.x p.y p.layer bs layers →
        (solveKnightsTour bs layers start).solution.count p = 1) := by
  obtain ⟨⟨ext, hext⟩, hlen, hnd, _, _⟩ := solve_sound bs layers start h
  refine ⟨hlen, ?_, hnd, fun hstart => solve_covers bs layers start h hstart⟩
  rw [hext]
  rfl

/-- C1 counterexample: with the out-of-bounds start `(7,7,0)` on the 1×1×1
board the solver succeeds (`path.length === totalSquares` holds immediately),
yet the solution misses the grid's only cell `(0,0,0)`, so "on success every
cell appears exactly once" is false as an unconditional statement. -/
theorem solveKnightsTour_coverage_fails_for_oob_start :
    (solveKnightsTour 1 1 ⟨7, 7, 0⟩).solution ≠ [] ∧
    isValidPosition 0 0 0 1 1 ∧
    (⟨0, 0, 0⟩ : Position) ∉ (solveKnightsTour 1 1 ⟨7, 7, 0⟩).solution := by decide

theorem solveKnightsTour_success_shape_witness :
    (solveKnightsTour 5 1 ⟨0, 0, 0⟩).solution ≠ [] ∧
    (((solveKnightsTour 5 1 ⟨0, 0, 0⟩).solution.length : ℤ) = 5 * 5 * 1 ∧
      (solveKnightsTour 5 1 ⟨0, 0, 0⟩).solution.head? = some ⟨0, 0, 0⟩ ∧
      (solveKnightsTour 5 1 ⟨0, 0, 0⟩).solution.Nodup ∧
      (isValidPosition (Position.mk 0 0 0).x (Position.mk 0 0 0).y
          (Position.mk 0 0 0).layer 5 1 →
        ∀ p : Position, isValidPosition p.x p.y p.layer 5 1 →
          (solveKnightsTour 5 1 ⟨0, 0, 0⟩).solution.count p = 1)) :=
  ⟨by decide, solveKnightsTour_success_shape 5 1 ⟨0, 0, 0⟩ (by decide)⟩

/-- C2 (amended): every consecutive pair of a non-empty solution differs by a
vector of the move table active for the layer count (the 24-vector 3-axis
table for `layers > 1`, the 8 two-axis vectors with zero layer component
otherwise); every position after the first is in bounds, and when the start
is in bounds so is every position; with `layers = 1` consecutive positions
never change layer.  (Unconditional in-bounds membership of the start fails
for out-of-bounds starts; see the counterexample.) -/
theorem solveKnightsTour_path_legality (bs layers : ℤ) (start : Position)
    (h : (solveKnightsTour bs layers start).solution ≠ []) :
    List.Chain' (LegalStep layers) (solveKnightsTour bs layers start).solution ∧
    (∀ p ∈ (solveKnightsTour bs layers start).solution.tail,
      isValidPosition p.x p.y p.layer bs layers) ∧
    (isValidPosition start.x start.y start.layer bs layers →
      ∀ p ∈ (solveKnightsTour bs layers start).solution,
        isValidPosition p.x p.y p.layer bs layers) ∧
    (layers = 1 → List.Chain' (fun p q : Position => p.layer = q.layer)
      (solveKnightsTour bs layers start).solution) := by
  obtain ⟨⟨ext, hext⟩, hlen, hnd, hch, htail⟩ := solve_sound bs layers start h
  refine ⟨hch, htail, ?_, ?_⟩
  · intro hstart p hp
    rw [hext] at hp
    rcases List.mem_cons.mp hp with rfl | hpe
    · exact hstart
    · apply htail
      rw [hext]
      simpa using hpe
  · intro hl1
    apply hch.imp
    intro p q hpq
    have hz := activeMoves_dz_of_not_gt layers (by omega)
      (q.x - p.x, q.y - p.y, q.layer - p.layer) hpq
    dsimp only at hz
    omega

/-- C2 counterexample: with the out-of-bounds start `(5,5,0)` on the 1×1×1
board the solver returns a non-empty solution containing the out-of-bounds
position `(5,5,0)` itself, so "every position of the solution lies within
bounds" fails as stated. -/
theorem solveKnightsTour_solution_escapes_bounds :
    (solveKnightsTour 1 1 ⟨5, 5, 0⟩).solution ≠ [] ∧
    (⟨5, 5, 0⟩ : Position) ∈ (solveKnightsTour 1 1 ⟨5, 5, 0⟩).solution ∧
    ¬ isValidPosition 5 5 0 1 1 := by decide

theorem solveKnightsTour_path_legality_witness :
    (solveKnightsTour 5 1 ⟨0, 0, 0⟩).solution ≠ [] ∧
    (List.Chain' (LegalStep 1) (solveKnightsTour 5 1 ⟨0, 0, 0⟩).solution ∧
      (∀ p ∈ (solveKnightsTour 5 1 ⟨0, 0, 0⟩).solution.tail,
        isValidPosition p.x p.y p.layer 5 1) ∧
      (isValidPosition (Position.mk 0 0 0).x (Position.mk 0 0 0).y
          (Position.mk 0 0 0).layer 5 1 →
        ∀ p ∈ (solveKnightsTour 5 1 ⟨0, 0, 0⟩).solution,
          isValidPosition p.x p.y p.layer 5 1) ∧
      ((1 : ℤ) = 1 → List.Chain' (fun p q : Position => p.layer = q.layer)
        (solveKnightsTour 5 1 ⟨0, 0, 0⟩).solution)) :=
  ⟨by decide, solveKnightsTour_path_legality 5 1 ⟨0, 0, 0⟩ (by decide)⟩

/-- C3 (confirmed): for an in-bounds start, if the (limitless) search returns
the empty solution then no Hamiltonian knight's tour from that start exists
on the board: the backtracking search tries every candidate at every node
before abandoning it. -/
theorem solveKnightsTour_empty_implies_no_tour (bs layers : ℤ) (start : Position)
    (hstart : isValidPosition start.x start.y start.layer bs layers)
    (hempty : (solveKnightsTour bs layers start).solution = []) :
    ¬ ∃ t, IsKnightTour bs layers start t := by
  rintro ⟨t, hhead, hlen, hnd, hch, hval⟩
  obtain ⟨t0, trest, rfl⟩ : ∃ a l, t = a :: l := by
    cases t with
    | nil => simp at hhead
    | cons a l => exact ⟨a, l, rfl⟩
  have h0 : t0 = start := by simpa using hhead
  rw [h0] at hnd hlen hch hval
  have hfuel : (bs * bs * layers).toNat + 1 ≤
      ([start] : List Position).length + ((bs * bs * layers).toNat + 1) := by
    simp only [List.length_singleton]
    omega
  have hcomp := backtrack_complete bs layers (bs * bs * layers)
    ((bs * bs * layers).toNat + 1) start [start] [positionToKey start] 0 trest
    (lockstep_entry start) (by simpa using hnd) (by simp) (by simpa using hlen)
    (by simpa using hch) (fun p hp => hval p (by simp [hp])) hfuel
  obtain ⟨sol, b', heq⟩ := hcomp
  have hsol := solve_eq_some heq
  rw [hsol] at hempty
  obtain ⟨⟨ext, hext⟩, _, _⟩ := backtrack_sound bs layers (bs * bs * layers)
    ((bs * bs * layers).toNat + 1) start [start] [positionToKey start] 0 sol b' heq
    (lockstep_entry start) (goodState_entry bs layers start) (by simp)
  rw [hext] at hempty
  simp at hempty

theorem solveKnightsTour_empty_implies_no_tour_witness :
    isValidPosition (Position.mk 0 0 0).x (Position.mk 0 0 0).y
      (Position.mk 0 0 0).layer 2 1 ∧
    (solveKnightsTour 2 1 ⟨0, 0, 0⟩).solution = [] ∧
    ¬ ∃ t, IsKnightTour 2 1 ⟨0, 0, 0⟩ t :=
  ⟨by decide, by decide,
    solveKnightsTour_empty_implies_no_tour 2 1 ⟨0, 0, 0⟩ (by decide) (by decide)⟩

/-- C4 counterexample: `solveKnightsTour(5, 1, (0,0,0))` is not
short-circuited: it runs the search and returns a non-empty solution rather
than `solution = []` — there is no `unsupported_board_size` policy (and
`TourResult` has no `reason` field at all). -/
theorem solveKnightsTour_board5_not_short_circuited :
    (solveKnightsTour 5 1 ⟨0, 0, 0⟩).solution ≠ [] := by decide

/-- C4 (amended): boardSize 5 is treated like any other size: the solver
performs the full backtracking search and, from `(0,0,0)` with one layer,
returns a complete 25-cell tour. -/
theorem solveKnightsTour_board5_full_search :
    (solveKnightsTour 5 1 ⟨0, 0, 0⟩).solution.length = 25 ∧
    (solveKnightsTour 5 1 ⟨0, 0, 0⟩).solution.head? = some ⟨0, 0, 0⟩ := by decide

/-- C5 counterexample: an out-of-bounds start is not rejected: on the 1×1×1
board with start `(9,9,0)` the solver returns a non-empty solution instead of
an unsolved result (and no `invalid_start` reason exists in `TourResult`). -/
theorem solveKnightsTour_invalid_start_not_rejected :
    ¬ isValidPosition 9 9 0 1 1 ∧
    (solveKnightsTour 1 1 ⟨9, 9, 0⟩).solution ≠ [] := by decide

/-- C5 (amended): the solver performs no start validation: the start is
pushed onto the path unconditionally and the search proceeds; on the 1×1×1
board the out-of-bounds start `(9,9,0)` is immediately returned as a
one-cell "solution" with zero backtracks. -/
theorem solveKnightsTour_invalid_start_searched :
    solveKnightsTour 1 1 ⟨9, 9, 0⟩ = ⟨[⟨9, 9, 0⟩], 0⟩ := by decide

/-- C6 counterexample: the solver enforces no backtrack limit: on the 3×3
board from the corner it keeps searching past the first backtrack (at least
two occur), rather than terminating as soon as one would occur under
`maxBacktracks = 0`; no `hitLimit` field exists in the result. -/
theorem solveKnightsTour_no_backtrack_limit :
    2 ≤ (solveKnightsTour 3 1 ⟨0, 0, 0⟩).backtracks := by decide

/-- C6 (amended): `solveKnightsTour` takes no `maxMs`/`maxBacktracks` limits
and checks none: the search runs unbounded until success or exhaustion, and
the result record carries only `solution` and `backtracks` — e.g. the 3×3
corner search exhausts after exactly 14 backtracks. -/
theorem solveKnightsTour_unbounded_search :
    solveKnightsTour 3 1 ⟨0, 0, 0⟩ = ⟨[], 14⟩ := by decide

/-- C7 (confirmed): the 3-axis move generator returns exactly 24 pairwise
distinct vectors, namely precisely those with one axis displaced by ±2, one
other axis by ±1, and the remaining axis 0. -/
theorem generateKnight3DMoves_spec :
    generateKnight3DMoves.length = 24 ∧ generateKnight3DMoves.Nodup ∧
    ∀ v : ℤ × ℤ × ℤ, v ∈ generateKnight3DMoves ↔ SpecKnightVec v :=
  ⟨by decide, by decide, fun v => mem_MOVES_3D_iff_specKnightVec v⟩

/-- C8 (confirmed): `sortMovesByWarnsdorf` orders candidates ascending by the
spec's onward degree (computed with the candidate provisionally visited —
which provably coincides with the code's accessibility count, since a cell is
never its own knight neighbour), and candidates of equal degree keep their
original relative order. -/
theorem sortMovesByWarnsdorf_spec (moves : List Position) (bs layers : ℤ)
    (visited : List String) :
    List.Pairwise (fun a b : Position =>
        specOnwardDegree a bs layers visited ≤ specOnwardDegree b bs layers visited)
      (sortMovesByWarnsdorf moves bs layers visited) ∧
    ∀ k : ℕ, (sortMovesByWarnsdorf moves bs layers visited).filter
        (fun c => decide (specOnwardDegree c bs layers visited = k)) =
      moves.filter (fun c => decide (specOnwardDegree c bs layers visited = k)) :=
  ⟨sortMoves_sorted moves bs layers visited, sortMoves_stable moves bs layers visited⟩

/-- C9 (confirmed): `positionToKey` is injective on integer-coordinate
positions, negative coordinates included: distinct triples never collide. -/
theorem positionToKey_collision_free (p q : Position) (h : p ≠ q) :
    positionToKey p ≠ positionToKey q :=
  fun hk => h (positionToKey_inj hk)

theorem positionToKey_collision_free_witness :
    ((⟨1, 2, 3⟩ : Position) ≠ ⟨12, 3, 0⟩) ∧
    positionToKey ⟨1, 2, 3⟩ ≠ positionToKey ⟨12, 3, 0⟩ :=
  ⟨by decide, positionToKey_collision_free ⟨1, 2, 3⟩ ⟨12, 3, 0⟩ (by decide)⟩

/-- C10 (confirmed): `sortMovesByWarnsdorf` returns a permutation of its
input: the same positions with the same multiplicities, only reordered. -/
theorem sortMovesByWarnsdorf_permutation (moves : List Position) (bs layers : ℤ)
    (visited : List String) :
    (sortMovesByWarnsdorf moves bs layers visited).Perm moves :=
  sortMoves_perm moves bs layers visited
